import Mathlib

/-!
Verification development for the count-animal-colors subtitle-corpus utilities
(src/deduplicate.py, src/clean_subs.py, src/utensils.py).

Text is modelled as `List Char`; a Python file is modelled by its character
content. Machinery that Python provides (str.split, file line iteration,
str.join, set-based dedup, re.sub for the seven fixed patterns of
strip_punctuation) is embedded as executable Lean functions whose doc comments
name the Python construct they translate. The character classes of Python
(str.isspace, str.isalnum, regex backslash-s) are modelled on their ASCII
fragment, which is the fragment all concrete inputs below use.
-/

/-- Python whitespace on the ASCII fragment: the character class matched by
regex backslash-s and reported by str.isspace. -/
def pyIsSpace (c : Char) : Bool :=
  c = ' ' || c = '\t' || c = '\n' || c = '\x0d' || c = Char.ofNat 11 || c = Char.ofNat 12

/-- Python str.isalnum on the ASCII fragment. -/
def pyIsAlnum (c : Char) : Bool :=
  c.isAlphanum

/-- Python str.split(sep) for a one-character separator: always returns a
nonempty list; the empty string splits to a single empty piece. -/
def pySplit (sep : Char) : List Char → List (List Char)
  | [] => [[]]
  | c :: rest =>
    if c = sep then [] :: pySplit sep rest
    else
      match pySplit sep rest with
      | [] => [[c]]
      | piece :: pieces => (c :: piece) :: pieces

/-- Python text-mode file line iteration (for line in file): splits the file
content into lines, each keeping its trailing newline; a final fragment with no
newline is kept as a last line; an empty file yields no lines. -/
def pyFileLines : List Char → List (List Char)
  | [] => []
  | c :: rest =>
    if c = '\n' then ['\n'] :: pyFileLines rest
    else
      match pyFileLines rest with
      | [] => [[c]]
      | line :: lines => (c :: line) :: lines

/-- Python sep.join(pieces) for a one-character separator. -/
def pyJoin (sep : Char) (pieces : List (List Char)) : List Char :=
  List.intercalate [sep] pieces

/-- Value of a decimal digit character. -/
def digitVal (c : Char) : Nat :=
  c.toNat - '0'.toNat

/-- Python int(s) on strings consisting of an optional sign followed by one or
more decimal digits; other strings (on which the Python call raises ValueError)
give none. -/
def pyInt (s : List Char) : Option Int :=
  let core : List Char → Option Int := fun ds =>
    if ds = [] ∨ ¬ (ds.all Char.isDigit) then none
    else some (Int.ofNat (ds.foldl (fun acc c => acc * 10 + digitVal c) 0))
  match s with
  | '-' :: rest => (core rest).map (fun n => -n)
  | '+' :: rest => core rest
  | _ => core s

/-!
## src/utensils.py

The wrapped Python callables are modelled as functions into an exception monad
`Except E`: a Python call that raises is a function returning .error. Wall
clock readings are passed in as explicit arguments since the module only
threads them through; logging output is returned as an explicit list.
-/

/-- Model of utensils.timer (src/utensils.py lines 18-27): the wrapper calls
the wrapped function and, on normal return, pairs the result with the timing
record (start, finish, duration = t1 - t0). There is no exception handler in
the source, so an exception propagates and no pair is produced. -/
def timer {α β E : Type} (func : α → Except E β) (t0 t1 : Int) (a : α) :
    Except E (β × (Int × Int × Int)) :=
  (func a).map (fun res => (res, (t0, t1, t1 - t0)))

/-- Model of utensils.log_timer (src/utensils.py lines 39-46): the wrapper
calls the wrapped function, logs one info message on normal return, and
returns the original result. There is no exception handler in the source, so
an exception propagates before anything is logged. The log is returned as the
second component. -/
def log_timer {α β E : Type} (func : α → Except E β) (msg : String) (a : α) :
    Except E β × List String :=
  match func a with
  | .error e => (.error e, [])
  | .ok res => (.ok res, [msg])

/-!
## src/deduplicate.py
-/

/-- Model of deduplicate.get_lines (src/deduplicate.py lines 13-23): split the
file content on newline, count the lines, build the set of unique lines
(represented canonically by List.dedup, which keeps one copy of each line),
and report the number of duplicates as total minus unique. -/
def get_lines (content : List Char) : List (List Char) × Nat × Nat :=
  let lines := pySplit '\n' content
  let n_lines := lines.length
  let uniq := lines.dedup
  (uniq, n_lines, n_lines - uniq.length)

/-- Model of the write phase of deduplicate.dedup_file (src/deduplicate.py
lines 34-38): the unique lines are shuffled into some order (passed in as the
list `shuffled`, a permutation of the unique set) and written joined by
newline. -/
def dedup_file_write (shuffled : List (List Char)) : List Char :=
  pyJoin '\n' shuffled

/-- Append an element at the end of the k-th list of a list of lists; used to
model writing one line to the k-th of the open temp file handles in
big_dedup_file. -/
def appendAt {α : Type} : List (List α) → Nat → α → List (List α)
  | [], _, _ => []
  | b :: bs, 0, x => (b ++ [x]) :: bs
  | b :: bs, k + 1, x => b :: appendAt bs k x

/-- Model of the distribution loop of deduplicate.big_dedup_file
(src/deduplicate.py lines 58-61): itertools.cycle over the n file handles is
an index counter k that starts at 0, and each successive line is written to
handle k with k then incremented modulo n. -/
def rrAux {α : Type} (n : Nat) : List α → Nat → List (List α) → List (List α)
  | [], _, bs => bs
  | x :: xs, k, bs => rrAux n xs ((k + 1) % n) (appendAt bs k x)

/-- The n temp-file contents produced by the distribution loop of
big_dedup_file, starting from n empty files and counter 0. -/
def roundRobin {α : Type} (n : Nat) (xs : List α) : List (List α) :=
  rrAux n xs 0 (List.replicate n [])

/-- Content of temp file j after the distribution phase of big_dedup_file on
the given input file content: the concatenation of the raw lines (with their
newlines) written to handle j. -/
def bucketRaw (content : List Char) (n j : Nat) : List Char :=
  ((roundRobin n (pyFileLines content)).getD j []).flatten

/-- The unique lines of temp file j as computed by big_dedup_file
(src/deduplicate.py line 69): read the temp file, split on newline, build the
set (canonically List.dedup). -/
def bucketUnique (content : List Char) (n j : Nat) : List (List Char) :=
  (pySplit '\n' (bucketRaw content n j)).dedup

/-- Model of the output phase of deduplicate.big_dedup_file
(src/deduplicate.py lines 65-71): for each bucket j in order, write the
newline-join of that bucket's shuffled unique lines to the output file, with
nothing written between consecutive buckets. `shuffles` supplies bucket j's
shuffled unique lines. -/
def big_dedup_write (n : Nat) (shuffles : List (List (List Char))) : List Char :=
  (List.range n).foldl (fun acc j => acc ++ pyJoin '\n' (shuffles.getD j [])) []

/-- The shuffle outcomes `shuffles` are valid for big_dedup_file on `content`
with n buckets when there is one per bucket and each is a permutation of that
bucket's unique lines. -/
def validShuffles (content : List Char) (n : Nat)
    (shuffles : List (List (List Char))) : Prop :=
  shuffles.length = n ∧
    ∀ j, j < n → (shuffles.getD j []).Perm (bucketUnique content n j)

/-- Modelled from the spec: the bucketing contract of section 4.2, by which
the line at zero-based input index i is assigned to bucket i mod n_bins. The
counter k is the index of the next line; bucket j collects the lines whose
index i satisfies i mod n = j. -/
def specBucketFrom {α : Type} (n : Nat) : Nat → List α → Nat → List α
  | _, [], _ => []
  | k, x :: xs, j =>
    (if k % n = j then [x] else []) ++ specBucketFrom n (k + 1) xs j

/-- Modelled from the spec: bucket j of the round-robin assignment, counting
input indices from 0. -/
def specBucket {α : Type} (xs : List α) (n j : Nat) : List α :=
  specBucketFrom n 0 xs j

/-!
## src/clean_subs.py : XML strippers
-/

/-- An lxml element: tag, attribute list, text content, children. Only the
features used by clean_subs.py are modelled. -/
inductive XNode where
  | elem (tag : String) (attrs : List (String × String)) (text : Option String)
      (children : List XNode)

/-- Tag of a node. -/
def XNode.tag : XNode → String
  | .elem t _ _ _ => t

/-- Text of a node (lxml node.text; none models Python None). -/
def XNode.text : XNode → Option String
  | .elem _ _ x _ => x

/-- Attribute lookup, lxml node.get(key). -/
def XNode.getAttr : XNode → String → Option String
  | .elem _ attrs _ _, key => (attrs.find? (fun kv => kv.1 == key)).map (fun kv => kv.2)

mutual

/-- lxml tree.iter(): the node itself followed by all descendants in document
(preorder) order. -/
def XNode.iter : XNode → List XNode
  | .elem t a x cs => .elem t a x cs :: XNode.iterAll cs

/-- Concatenated iteration of a list of sibling subtrees. -/
def XNode.iterAll : List XNode → List XNode
  | [] => []
  | n :: ns => XNode.iter n ++ XNode.iterAll ns

end

/-- Python f-string rendering of a value that may be None. -/
def pyStr : Option String → String
  | some s => s
  | none => "None"

/-- Model of clean_subs.strip_upos (src/clean_subs.py lines 13-21): walk the
tree in document order; an s node contributes a newline, a w node contributes
text, underscore, upos attribute and a trailing space; everything is joined
into one string. -/
def strip_upos (tree : XNode) : String :=
  String.join (tree.iter.flatMap (fun node =>
    (if node.tag == "s" then ["\n"] else []) ++
      (if node.tag == "w" then
        [pyStr node.text ++ "_" ++ pyStr (node.getAttr "upos") ++ " "] else [])))

/-- Model of clean_subs.strip_lemma (src/clean_subs.py lines 24-32): same walk
as strip_upos, with the lemma attribute in place of the surface text. -/
def strip_lemma (tree : XNode) : String :=
  String.join (tree.iter.flatMap (fun node =>
    (if node.tag == "s" then ["\n"] else []) ++
      (if node.tag == "w" then
        [pyStr (node.getAttr "lemma") ++ "_" ++ pyStr (node.getAttr "upos") ++ " "] else [])))

/-- Model of the timestamp normalization in clean_subs.strip_viz
(src/clean_subs.py line 55): value.replace(colon, empty).replace(comma, dot).
For the one-character patterns involved, Python str.replace removes every
colon and then turns every comma into a dot. -/
def vizTimestamp (value : List Char) : List Char :=
  (value.filter (fun c => c ≠ ':')).map (fun c => if c = ',' then '.' else c)

/-!
## src/clean_subs.py : strip_punctuation

The seven re.sub rewrites (src/clean_subs.py lines 118-126) are embedded one
by one as left-to-right scanners specialized to their pattern, each matching
Python re semantics for that pattern: leftmost match, lazy and greedy
quantifier behavior, dot not matching newline, IGNORECASE, dollar matching at
end of string and also just before a trailing newline, and an unmatched group
substituting as the empty string. The scanners recurse on an explicit fuel
argument (any fuel at least the length of the text computes the rewrite) so
that every definition reduces inside the kernel.
-/

/-- The sentence-final punctuation class of rule 4. -/
def PUNCT : List Char := ['.', '!', '?', ':', ';']

/-- Rule 1 helper: lazy scan for the next close angle bracket; the dot of the
pattern cannot cross a newline, so a newline before any close bracket makes
the match fail. Returns the remainder after the close bracket. -/
def tagEnd : List Char → Option (List Char)
  | [] => none
  | '>' :: rest => some rest
  | '\n' :: _ => none
  | _ :: rest => tagEnd rest

/-- Rule 1 scanner with fuel: re.sub of pattern open-bracket dot-star-lazy
close-bracket with the empty replacement. -/
def rule1Go : Nat → List Char → List Char
  | _, [] => []
  | 0, s => s
  | fuel + 1, c :: rest =>
    if c = '<' then
      match tagEnd rest with
      | some rest2 => rule1Go fuel rest2
      | none => c :: rule1Go fuel rest
    else c :: rule1Go fuel rest

/-- Rule 1: strip remaining xml tag markup. -/
def rule1 (s : List Char) : List Char :=
  rule1Go s.length s

/-- Rule 2 helper: true when the next four characters are the letters http in
any case (IGNORECASE). -/
def isHttp4 : List Char → Bool
  | a :: b :: c :: d :: _ =>
    a.toLower = 'h' && b.toLower = 't' && c.toLower = 't' && d.toLower = 'p'
  | _ => false

/-- Rule 2 helper: lazy scan after the letters http up to and including the
first whitespace or close square bracket, or to the end of the string (the
dollar alternative of the pattern consumes nothing). -/
def urlEnd : List Char → List Char
  | [] => []
  | c :: rest => if pyIsSpace c || c = ']' then rest else urlEnd rest

/-- Rule 2 scanner with fuel: re.sub of the link pattern http dot-star-lazy
(whitespace or close bracket or end) with the empty replacement. -/
def rule2Go : Nat → List Char → List Char
  | _, [] => []
  | 0, s => s
  | fuel + 1, c :: rest =>
    if isHttp4 (c :: rest) then rule2Go fuel (urlEnd (rest.drop 3))
    else c :: rule2Go fuel rest

/-- Rule 2: strip links. -/
def rule2 (s : List Char) : List Char :=
  rule2Go s.length s

/-- Rule 3 helper: lazy scan for the next close parenthesis; the dot of the
pattern cannot cross a newline. Returns the remainder after the close
parenthesis. -/
def parenEnd : List Char → Option (List Char)
  | [] => none
  | ')' :: rest => some rest
  | '\n' :: _ => none
  | _ :: rest => parenEnd rest

/-- Rule 3 scanner with fuel: re.sub of the pattern whitespace open-paren
dot-star-lazy close-paren with the empty replacement. -/
def rule3Go : Nat → List Char → List Char
  | _, [] => []
  | 0, s => s
  | fuel + 1, c :: rest =>
    if pyIsSpace c ∧ rest.head? = some '(' then
      match parenEnd rest.tail with
      | some rest3 => rule3Go fuel rest3
      | none => c :: rule3Go fuel rest
    else c :: rule3Go fuel rest

/-- Rule 3: remove a parenthesized span preceded by one whitespace character. -/
def rule3 (s : List Char) : List Char :=
  rule3Go s.length s

/-- Rule 4 helper: the first alternative of the sentence-break pattern at the
current position: a greedy run of two or more non-whitespace characters
(group 1), a lazy run of one or more sentence-final punctuation characters,
then one whitespace character. With n the length of the maximal non-whitespace
run, backtracking of the greedy group succeeds exactly when n is at least 3,
a whitespace character follows the run inside the string, and the last run
character is punctuation: the group is then the first n-1 characters, one
punctuation character and the whitespace character are consumed, and the
replacement is the group followed by a newline. The length of the maximal
non-whitespace run at the current position is split out as nonWsRun. -/
def nonWsRun (s : List Char) : Nat :=
  (s.takeWhile (fun c => !(pyIsSpace c))).length

/-- Rule 4 helper: the first alternative of the sentence-break pattern at the
current position, as described above; none when backtracking fails. -/
def tryAlt1 (s : List Char) : Option (List Char × List Char) :=
  if 3 ≤ nonWsRun s ∧ nonWsRun s < s.length ∧ s.getD (nonWsRun s - 1) ' ' ∈ PUNCT then
    some (s.take (nonWsRun s - 1) ++ ['\n'], s.drop (nonWsRun s + 1))
  else none

/-- Rule 4 scanner with fuel: re.sub of the sentence-break pattern (first
alternative as in tryAlt1, second alternative a bare dollar) with replacement
group-1 newline. The dollar matches at the end of the string and also just
before a trailing newline; at those empty matches group 1 is unset and
substitutes as the empty string, so a bare newline is inserted at each. -/
def rule4Go : Nat → List Char → List Char
  | _, [] => ['\n']
  | 0, s => s
  | fuel + 1, c :: rest =>
    if c = '\n' ∧ rest = [] then ['\n', '\n', '\n']
    else
      match tryAlt1 (c :: rest) with
      | some (repl, rest2) => repl ++ rule4Go fuel rest2
      | none => c :: rule4Go fuel rest

/-- Rule 4: break sentences at periods. -/
def rule4 (s : List Char) : List Char :=
  rule4Go s.length s

/-- The hyphen, en dash, em dash, slash and apostrophe class of rule 5. -/
def DASHES : List Char := ['-', '–', '—', '/', Char.ofNat 39]

/-- Rule 5: replace each dash, slash or apostrophe character with a space. -/
def rule5 (s : List Char) : List Char :=
  s.map (fun c => if c ∈ DASHES then ' ' else c)

/-- Rule 6 scanner with fuel: re.sub of the pattern whitespace-star newline
whitespace-star with a single newline. A maximal whitespace run containing at
least one newline is matched whole (greedy star on both sides) and collapses
to one newline; a whitespace run with no newline is left as it is. -/
def rule6Go : Nat → List Char → List Char
  | _, [] => []
  | 0, s => s
  | fuel + 1, c :: rest =>
    if pyIsSpace c then
      let run := rest.takeWhile pyIsSpace
      (if c = '\n' || run.contains '\n' then ['\n'] else c :: run) ++
        rule6Go fuel (rest.dropWhile pyIsSpace)
    else c :: rule6Go fuel rest

/-- Rule 6: strip empty lines and lines containing only whitespace. -/
def rule6 (s : List Char) : List Char :=
  rule6Go s.length s

/-- Rule 7 scanner with fuel: re.sub of the pattern whitespace repeated two or
more times with a single space: a maximal whitespace run of length two or more
collapses to one space, a single whitespace character is kept. -/
def rule7Go : Nat → List Char → List Char
  | _, [] => []
  | 0, s => s
  | fuel + 1, c :: rest =>
    if pyIsSpace c then
      let run := rest.takeWhile pyIsSpace
      (if run = [] then [c] else [' ']) ++ rule7Go fuel (rest.dropWhile pyIsSpace)
    else c :: rule7Go fuel rest

/-- Rule 7: strip excessive spaces. -/
def rule7 (s : List Char) : List Char :=
  rule7Go s.length s

/-- A character kept by the final character-class filter of strip_punctuation
(src/clean_subs.py lines 128-133): alphanumeric or whitespace, and for the two
tagged formats also the underscore. -/
def keepChar (ioformat : String) (c : Char) : Bool :=
  pyIsAlnum c || pyIsSpace c ||
    ((ioformat == "lemma" || ioformat == "upos") && c = '_')

/-- Model of clean_subs.strip_punctuation (src/clean_subs.py lines 111-136):
the seven re.sub rewrites applied in order, then the character-class filter
selected by ioformat. -/
def strip_punctuation (txt : List Char) (ioformat : String) : List Char :=
  (rule7 (rule6 (rule5 (rule4 (rule3 (rule2 (rule1 txt))))))).filter
    (keepChar ioformat)

/-!
## src/clean_subs.py : archive entry selection and joining

Paths are modelled as `List Char`. The selection condition of strip_archive
(src/clean_subs.py lines 230-234) and join_archive (lines 290-294) is the
same nested test: extension, then directory prefix, then int() of the fourth
slash-separated path segment in range(years). int raises on a malformed
segment and indexing raises on a short path, so selection is modelled in
Except: an entry that reaches the year test with a short or unparsable path
aborts the whole selection.
-/

/-- os.path.join(dirpath, lang) for a relative lang: dirpath, slash, lang. -/
def pathJoin (dirpath lang : List Char) : List Char :=
  dirpath ++ ['/'] ++ lang

/-- The dirpath assignment shared by strip_archive and join_archive
(src/clean_subs.py lines 225-228 and 285-288): txt selects the raw subcorpus,
upos and lemma the parsed one; any other ioformat (viz) leaves dirpath
unassigned and the later use raises NameError. -/
def dirFor (ioformat : String) : Option (List Char) :=
  if ioformat == "txt" then some ("OpenSubtitles/raw".toList)
  else if ioformat == "upos" || ioformat == "lemma" then
    some ("OpenSubtitles/parsed".toList)
  else none

/-- One entry of the selection filter: extension test, directory-prefix test,
then year-range test on the fourth path segment, where range(years) membership
for integers is years.1 less-or-equal y less-than years.2. A path that fails
an earlier test is skipped without evaluating the year. -/
def entrySelect (ext pre : List Char) (years : Int × Int) (p : List Char) :
    Except String Bool :=
  if ext.isSuffixOf p then
    if pre.isPrefixOf p then
      match (pySplit '/' p)[3]? with
      | none => .error "IndexError"
      | some seg =>
        match pyInt seg with
        | none => .error "ValueError"
        | some y => .ok (years.1 ≤ y && y < years.2)
    else .ok false
  else .ok false

/-- The filepaths loop shared by strip_archive and join_archive: keep the
entries of the archive name list that pass entrySelect, in listing order,
propagating the exception of a bad year segment. -/
def selectPaths (ext pre : List Char) (years : Int × Int) :
    List (List Char) → Except String (List (List Char))
  | [] => .ok []
  | p :: ps =>
    match entrySelect ext pre years p with
    | .error e => .error e
    | .ok b =>
      match selectPaths ext pre years ps with
      | .error e => .error e
      | .ok rest => .ok (if b then p :: rest else rest)

/-- The entries processed by strip_archive (src/clean_subs.py lines 223-240):
extension xml, prefix dirpath slash lang, year in range. NameError for an
ioformat with no dirpath. (strip_archive then writes the entries in sorted
order; which entries are processed is unchanged by the sort.) -/
def stripArchivePaths (lang ioformat : String) (years : Int × Int)
    (names : List (List Char)) : Except String (List (List Char)) :=
  match dirFor ioformat with
  | none => .error "NameError"
  | some d => selectPaths "xml".toList (pathJoin d lang.toList) years names

/-- The entries processed by join_archive (src/clean_subs.py lines 283-294):
extension equal to the ioformat, prefix dirpath slash lang, year in range. -/
def joinArchivePaths (lang ioformat : String) (years : Int × Int)
    (names : List (List Char)) : Except String (List (List Char)) :=
  match dirFor ioformat with
  | none => .error "NameError"
  | some d => selectPaths ioformat.toList (pathJoin d lang.toList) years names

/-- One iteration of the writing loop of join_archive (src/clean_subs.py
lines 299-303) on the state (output content, progress counter, console): the
cleaned body of the entry is appended to the output file; only under verbose
is the counter incremented and a progress line printed. -/
def joinStep (contents : List Char → List Char) (ioformat : String)
    (total : Nat) (verbose : Bool) (st : List Char × Nat × List String)
    (p : List Char) : List Char × Nat × List String :=
  let out := st.1 ++ strip_punctuation (contents p) ioformat
  if verbose then
    (out, st.2.1 + 1, st.2.2 ++ ["progress " ++ toString (st.2.1 + 1) ++ " of " ++ toString total])
  else (out, st.2.1, st.2.2)

/-- Model of clean_subs.join_archive (src/clean_subs.py lines 272-306): select
the matching entries, concatenate their cleaned bodies into the output file in
listing order, print progress only under verbose, and return the count of
selected files. The result is (output file content, returned count, console
lines). -/
def join_archive (names : List (List Char)) (contents : List Char → List Char)
    (lang ioformat : String) (years : Int × Int) (verbose : Bool) :
    Except String (List Char × Nat × List String) :=
  match joinArchivePaths lang ioformat years names with
  | .error e => .error e
  | .ok fps =>
    let total := fps.length
    let st := fps.foldl (joinStep contents ioformat total verbose) ([], 0, [])
    .ok (st.1, total, if verbose then st.2.2 ++ [""] else st.2.2)

/-!
## Cleanliness predicate for the idempotence analysis of strip_punctuation

A character allowed in a once-cleaned text, and the conditions under which a
second application of the pipeline is the identity.
-/

/-- A character that the idempotence argument allows: alphanumeric, space,
newline, or (for the tagged formats) underscore. -/
def allowedChar (ioformat : String) (c : Char) : Bool :=
  pyIsAlnum c || c = ' ' || c = '\n' ||
    ((ioformat == "lemma" || ioformat == "upos") && c = '_')

/-- No position of the text starts a case-insensitive occurrence of the four
letters http. -/
def noHttp : List Char → Bool
  | [] => true
  | c :: rest => !(isHttp4 (c :: rest)) && noHttp rest

/-- No two adjacent characters of the text are both whitespace. -/
def noAdjWs : List Char → Bool
  | c :: d :: rest => !(pyIsSpace c && pyIsSpace d) && noAdjWs (d :: rest)
  | _ => true

/-- The conditions on a once-cleaned text under which one more application of
strip_punctuation is the identity: only allowed characters, no occurrence of
http in any case, no two adjacent whitespace characters, and a final newline. -/
def cleanText (ioformat : String) (s : List Char) : Prop :=
  (∀ c ∈ s, allowedChar ioformat c) ∧ noHttp s ∧ noAdjWs s ∧
    s.getLast? = some '\n'

instance (ioformat : String) (s : List Char) : Decidable (cleanText ioformat s) := by
  unfold cleanText
  exact inferInstance

/-- Decidable equality for Except results, so that concrete selection runs can
be checked by evaluation. -/
instance {ε α : Type} [DecidableEq ε] [DecidableEq α] : DecidableEq (Except ε α) := fun a b =>
  match a, b with
  | .error e, .error f => if h : e = f then .isTrue (by rw [h]) else .isFalse (by simp [h])
  | .ok x, .ok y => if h : x = y then .isTrue (by rw [h]) else .isFalse (by simp [h])
  | .error _, .ok _ => .isFalse (by simp)
  | .ok _, .error _ => .isFalse (by simp)

/-!
## Concrete inputs for the claims
-/

/-- The word node (cat, upos NOUN, lemma cat) of the tag-encoding claim. -/
def catNode : XNode := .elem "w" [("upos", "NOUN"), ("lemma", "cat")] (some "cat") []

/-- The word node (sat, upos VERB, lemma sit) of the tag-encoding claim. -/
def satNode : XNode := .elem "w" [("upos", "VERB"), ("lemma", "sit")] (some "sat") []

/-- The sentence node containing the two word nodes of the tag-encoding claim. -/
def sentNode : XNode := .elem "s" [] none [catNode, satNode]

/-!
## Theorems
-/

/-- C6: timestamp normalization in the viz encoding maps the timestamp token
00:01:02,345 to 000102.345: the colons are removed and the comma becomes a
decimal point. -/
theorem claim_C6_timestamp_normalization :
    vizTimestamp "00:01:02,345".toList = "000102.345".toList := by
  decide

/-- C4 counterexample: on the claimed parse tree (one sentence node with the
two word nodes) the token-tag stripper does not produce the claimed string
cat_NOUN sat_VERB with a trailing space: the sentence node itself is visited
first and contributes a leading line break. -/
theorem claim_C4_counterexample :
    strip_upos sentNode ≠ "cat_NOUN sat_VERB " := by
  decide

/-- C4 as amended: on the parse tree with one sentence node containing the two
word nodes (cat, NOUN, cat) and (sat, VERB, sit), the token-tag stripper
produces a line break for the sentence node followed by cat_NOUN sat_VERB
(trailing space), and the lemma-tag stripper likewise produces the line break
followed by cat_NOUN sit_VERB (trailing space). -/
theorem claim_C4_tag_encoding :
    strip_upos sentNode = "\ncat_NOUN sat_VERB " ∧
      strip_lemma sentNode = "\ncat_NOUN sit_VERB " := by
  constructor <;> decide

/-- C7: for every wrapped function and argument on which the wrapped function
raises, both timing wrappers propagate that same exception unchanged and
produce no result; log_timer also logs nothing. -/
theorem claim_C7_exception_propagation {α β E : Type}
    (func : α → Except E β) (t0 t1 : Int) (msg : String) (a : α) (e : E)
    (h : func a = .error e) :
    timer func t0 t1 a = .error e ∧ log_timer func msg a = (.error e, []) := by
  refine ⟨?_, ?_⟩
  · simp [timer, h, Except.map]
  · simp [log_timer, h]

/-- C7 witness: the propagation theorem applied to a concrete function that
raises on every input. -/
theorem claim_C7_witness :
    timer (fun _ : Nat => (Except.error "boom" : Except String Nat)) 0 1 42 =
        .error "boom" ∧
      log_timer (fun _ : Nat => (Except.error "boom" : Except String Nat)) "m" 42 =
        (.error "boom", []) :=
  claim_C7_exception_propagation
    (fun _ : Nat => (Except.error "boom" : Except String Nat)) 0 1 "m" 42 "boom" rfl

/-- Splitting a separator-free string yields that single piece. -/
theorem pySplit_of_not_mem (sep : Char) :
    ∀ l : List Char, sep ∉ l → pySplit sep l = [l] := by
  intro l
  induction l with
  | nil => intro _; rfl
  | cons c rest ih =>
    intro h
    have hc : ¬ c = sep := fun he => h (he ▸ List.mem_cons_self c rest)
    have hr : sep ∉ rest := fun hm => h (List.mem_cons_of_mem c hm)
    simp [pySplit, hc, ih hr]

/-- Splitting a string that starts with a separator-free piece followed by the
separator peels off that piece. -/
theorem pySplit_append (sep : Char) :
    ∀ l t : List Char, sep ∉ l →
      pySplit sep (l ++ sep :: t) = l :: pySplit sep t := by
  intro l
  induction l with
  | nil => intro t _; simp [pySplit]
  | cons c rest ih =>
    intro t h
    have hc : ¬ c = sep := fun he => h (he ▸ List.mem_cons_self c rest)
    have hr : sep ∉ rest := fun hm => h (List.mem_cons_of_mem c hm)
    simp [pySplit, hc, ih t hr]

/-- Joining a nonempty list of separator-free pieces and splitting again
recovers the pieces: the inverse reading used to state what the written
dedup output contains. -/
theorem pySplit_pyJoin (sep : Char) :
    ∀ ls : List (List Char), ls ≠ [] → (∀ l ∈ ls, sep ∉ l) →
      pySplit sep (pyJoin sep ls) = ls := by
  intro ls
  induction ls with
  | nil => intro h; exact absurd rfl h
  | cons l rest ih =>
    intro _ hall
    cases rest with
    | nil =>
      have : pyJoin sep [l] = l := by simp [pyJoin, List.intercalate]
      rw [this, pySplit_of_not_mem sep l (hall l (List.mem_cons_self l []))]
    | cons l2 rest2 =>
      have hj : pyJoin sep (l :: l2 :: rest2) = l ++ sep :: pyJoin sep (l2 :: rest2) := by
        simp [pyJoin, List.intercalate, List.intersperse]
      rw [hj, pySplit_append sep l _ (hall l (List.mem_cons_self l _)),
        ih (List.cons_ne_nil l2 rest2) (fun x hx => hall x (List.mem_cons_of_mem l hx))]

/-- C2: on a file with content a, b, a, c on four lines, dedup reports 4 total
lines and 1 duplicate, and whatever order the shuffle produces, the written
output is the newline-join of a permutation of the set consisting of a, b and
c; reading the output back by lines gives exactly that set, each line once. -/
theorem claim_C2_exact_dedup :
    (get_lines "a\nb\na\nc".toList).2.1 = 4 ∧
      (get_lines "a\nb\na\nc".toList).2.2 = 1 ∧
      ∀ shuffled : List (List Char),
        shuffled.Perm (get_lines "a\nb\na\nc".toList).1 →
          shuffled.Perm ["a".toList, "b".toList, "c".toList] ∧
            dedup_file_write shuffled = pyJoin '\n' shuffled ∧
            (pySplit '\n' (dedup_file_write shuffled)).Perm
              ["a".toList, "b".toList, "c".toList] := by
  refine ⟨by decide, by decide, ?_⟩
  intro shuffled hp
  have hset : (get_lines "a\nb\na\nc".toList).1 =
      ["b".toList, "a".toList, "c".toList] := by decide
  rw [hset] at hp
  have hperm : shuffled.Perm ["a".toList, "b".toList, "c".toList] :=
    hp.trans (by decide)
  refine ⟨hperm, rfl, ?_⟩
  have hne : shuffled ≠ [] := by
    intro he
    rw [he] at hperm
    exact absurd hperm.symm (by decide)
  have hfree : ∀ l ∈ shuffled, '\n' ∉ l := by
    intro l hl
    have : l ∈ ["a".toList, "b".toList, "c".toList] := hperm.mem_iff.mp hl
    fin_cases this <;> decide
  rw [show dedup_file_write shuffled = pyJoin '\n' shuffled from rfl,
    pySplit_pyJoin '\n' shuffled hne hfree]
  exact hperm

/-- C2 witness: the dedup claim applied at the concrete shuffle outcome that
keeps the set order b, a, c. -/
theorem claim_C2_witness :
    (["b".toList, "a".toList, "c".toList] : List (List Char)).Perm
        ["a".toList, "b".toList, "c".toList] ∧
      dedup_file_write ["b".toList, "a".toList, "c".toList] =
        pyJoin '\n' ["b".toList, "a".toList, "c".toList] ∧
      (pySplit '\n' (dedup_file_write ["b".toList, "a".toList, "c".toList])).Perm
        ["a".toList, "b".toList, "c".toList] :=
  claim_C2_exact_dedup.2.2 ["b".toList, "a".toList, "c".toList] (by decide)

/-- C10: because get_lines splits the raw content on the newline character, a
file whose content is the single line a followed by a newline yields a final
empty line: the totals are 2 lines and 0 duplicates, the unique set is the
pair of the line a and the empty line, and every shuffle outcome writes an
output whose lines read back as exactly that set, so the output contains an
empty line. -/
theorem claim_C10_trailing_newline :
    get_lines "a\n".toList = (["a".toList, []], 2, 0) ∧
      ∀ shuffled : List (List Char),
        shuffled.Perm (get_lines "a\n".toList).1 →
          [] ∈ shuffled ∧
            (pySplit '\n' (dedup_file_write shuffled)).Perm ["a".toList, []] := by
  refine ⟨by decide, ?_⟩
  intro shuffled hp
  have hset : (get_lines "a\n".toList).1 = ["a".toList, []] := by decide
  rw [hset] at hp
  have hmem : [] ∈ shuffled := hp.mem_iff.mpr (by decide)
  have hne : shuffled ≠ [] := by
    intro he
    rw [he] at hp
    exact absurd hp.symm (by decide)
  have hfree : ∀ l ∈ shuffled, '\n' ∉ l := by
    intro l hl
    have : l ∈ ["a".toList, ([] : List Char)] := hp.mem_iff.mp hl
    fin_cases this <;> decide
  refine ⟨hmem, ?_⟩
  rw [show dedup_file_write shuffled = pyJoin '\n' shuffled from rfl,
    pySplit_pyJoin '\n' shuffled hne hfree]
  exact hp

/-- C10 witness: the trailing-newline claim applied at the shuffle outcome
that puts the empty line first. -/
theorem claim_C10_witness :
    [] ∈ ([[], "a".toList] : List (List Char)) ∧
      (pySplit '\n' (dedup_file_write [[], "a".toList])).Perm ["a".toList, []] :=
  claim_C10_trailing_newline.2 [[], "a".toList] (by decide)

/-- Writing to handle k leaves the number of temp files unchanged. -/
theorem appendAt_length {α : Type} :
    ∀ (bs : List (List α)) (k : Nat) (x : α), (appendAt bs k x).length = bs.length := by
  intro bs
  induction bs with
  | nil => intro k x; rfl
  | cons b rest ih =>
    intro k x
    cases k with
    | zero => simp [appendAt]
    | succ k => simp [appendAt, ih]

/-- Writing to handle k appends to file k and leaves every other file
unchanged. -/
theorem appendAt_get? {α : Type} :
    ∀ (bs : List (List α)) (k : Nat) (x : α) (j : Nat),
      (appendAt bs k x).get? j =
        if j = k then (bs.get? j).map (fun b => b ++ [x]) else bs.get? j := by
  intro bs
  induction bs with
  | nil =>
    intro k x j
    simp [appendAt]
  | cons b rest ih =>
    intro k x j
    cases k with
    | zero =>
      cases j with
      | zero => simp [appendAt]
      | succ j => simp [appendAt]
    | succ k =>
      cases j with
      | zero => simp [appendAt]
      | succ j => simpa [appendAt, Nat.succ_inj] using ih k x j

/-- The spec-side bucket content only depends on the starting index modulo the
bucket count. -/
theorem specBucketFrom_mod {α : Type} (n : Nat) :
    ∀ (xs : List α) (k j : Nat),
      specBucketFrom n (k % n) xs j = specBucketFrom n k xs j := by
  intro xs
  induction xs with
  | nil => intro k j; rfl
  | cons x rest ih =>
    intro k j
    have hmm : k % n % n = k % n := Nat.mod_mod_of_dvd k dvd_rfl
    have hmod : (k % n + 1) % n = (k + 1) % n := by
      rw [Nat.add_mod, hmm, ← Nat.add_mod]
    calc specBucketFrom n (k % n) (x :: rest) j
        = (if k % n % n = j then [x] else []) ++ specBucketFrom n (k % n + 1) rest j := rfl
      _ = (if k % n = j then [x] else []) ++ specBucketFrom n (k % n + 1) rest j := by
          rw [hmm]
      _ = (if k % n = j then [x] else []) ++ specBucketFrom n ((k % n + 1) % n) rest j := by
          rw [ih (k % n + 1) j]
      _ = (if k % n = j then [x] else []) ++ specBucketFrom n ((k + 1) % n) rest j := by
          rw [hmod]
      _ = (if k % n = j then [x] else []) ++ specBucketFrom n (k + 1) rest j := by
          rw [ih (k + 1) j]
      _ = specBucketFrom n k (x :: rest) j := rfl

/-- The distribution loop of big_dedup_file, started at counter k on temp
files bs, extends file j by exactly the lines whose running index is congruent
to j modulo the number of handles. -/
theorem rrAux_get? {α : Type} (n : Nat) :
    ∀ (xs : List α) (k : Nat) (bs : List (List α)) (j : Nat),
      k < n → bs.length = n →
      (rrAux n xs k bs).get? j =
        (bs.get? j).map (fun b => b ++ specBucketFrom n k xs j) := by
  intro xs
  induction xs with
  | nil =>
    intro k bs j _ _
    show bs.get? j = (bs.get? j).map (fun b => b ++ specBucketFrom n k [] j)
    cases hbj : bs.get? j <;> simp [specBucketFrom]
  | cons x rest ih =>
    intro k bs j hk hb
    have hn : 0 < n := Nat.lt_of_le_of_lt (Nat.zero_le _) hk
    have hstep : rrAux n (x :: rest) k bs = rrAux n rest ((k + 1) % n) (appendAt bs k x) := rfl
    rw [hstep, ih ((k + 1) % n) (appendAt bs k x) j (Nat.mod_lt _ hn)
      (by rw [appendAt_length]; exact hb)]
    rw [specBucketFrom_mod n rest (k + 1) j, appendAt_get?]
    have hkn : k % n = k := Nat.mod_eq_of_lt hk
    by_cases hj : j = k
    · subst hj
      have : (if j % n = j then [x] else []) = [x] := by
        rw [hkn]; simp
      cases hbj : bs.get? j <;>
        simp [hbj, specBucketFrom, hkn, List.append_assoc]
    · have hne : ¬ k % n = j := by rw [hkn]; exact fun he => hj he.symm
      cases hbj : bs.get? j <;>
        simp [hbj, hj, specBucketFrom, hne]

/-- The temp files produced by the distribution loop: file j holds exactly
the input lines at indices congruent to j modulo the number of bins. -/
theorem roundRobin_get? {α : Type} (n : Nat) (xs : List α) (j : Nat)
    (hn : 1 ≤ n) (hj : j < n) :
    (roundRobin n xs).get? j = some (specBucket xs n j) := by
  have hrep : (List.replicate n ([] : List α)).get? j = some [] := by
    simp [List.get?_eq_getElem?, List.getElem?_replicate, hj]
  unfold roundRobin specBucket
  rw [rrAux_get? n xs 0 (List.replicate n []) j hn (List.length_replicate n []), hrep]
  simp

/-- C1: the distribution phase of big_dedup_file sends the line at input index
i to temp bucket i mod n_bins (stated as: for every bucket count of at least
one and every bucket j below it, bucket j holds exactly the lines at indices
congruent to j); in particular on the four-line file a, b, a, c with two bins,
bucket 0 receives the two a lines and bucket 1 receives the b and c lines, and
after per-bucket deduplication bucket 0 holds exactly one line a. -/
theorem claim_C1_round_robin_assignment :
    (∀ (α : Type) (xs : List α) (n j : Nat), 1 ≤ n → j < n →
        (roundRobin n xs).get? j = some (specBucket xs n j)) ∧
      roundRobin 2 (pyFileLines "a\nb\na\nc\n".toList) =
        [["a\n".toList, "a\n".toList], ["b\n".toList, "c\n".toList]] ∧
      (bucketUnique "a\nb\na\nc\n".toList 2 0).count "a".toList = 1 :=
  ⟨fun _ xs n j hn hj => roundRobin_get? n xs j hn hj, by decide, by decide⟩

/-- C1 witness: the general assignment fact applied at a concrete three-line
input with two bins and bucket 1. -/
theorem claim_C1_witness :
    (roundRobin 2 ["x".toList, "y".toList, "z".toList]).get? 1 =
      some (specBucket ["x".toList, "y".toList, "z".toList] 2 1) :=
  claim_C1_round_robin_assignment.1 (List Char)
    ["x".toList, "y".toList, "z".toList] 2 1 (by decide) (by decide)

/-- A left fold that appends pieces to an accumulator writes the concatenation
of the pieces after the accumulator. -/
theorem foldl_append_eq_flatten {β γ : Type} :
    ∀ (l : List β) (f : β → List γ) (acc : List γ),
      l.foldl (fun a j => a ++ f j) acc = acc ++ (l.map f).flatten := by
  intro l
  induction l with
  | nil => intro f acc; simp
  | cons x rest ih =>
    intro f acc
    simp [List.foldl_cons, ih, List.append_assoc]

/-- C9: the output file of big_dedup_file is exactly the concatenation, in
bucket order with no separator, of the newline-joins of each bucket's shuffled
unique lines; consequently on the two-line file a, b with two bins there is a
valid shuffle outcome (bucket 0 shuffled to put its empty split fragment
first) whose output reads back with the line ab, a line that merges the last
line contributed by bucket 0 with the first line contributed by bucket 1 and
belongs to neither bucket. -/
theorem claim_C9_bucket_concatenation :
    (∀ (n : Nat) (shuffles : List (List (List Char))),
        big_dedup_write n shuffles =
          ((List.range n).map (fun j => pyJoin '\n' (shuffles.getD j []))).flatten) ∧
      validShuffles "a\nb".toList 2 [[[], "a".toList], ["b".toList]] ∧
      big_dedup_write 2 [[[], "a".toList], ["b".toList]] = "\nab".toList ∧
      "ab".toList ∈ pySplit '\n' (big_dedup_write 2 [[[], "a".toList], ["b".toList]]) ∧
      "ab".toList ∉ bucketUnique "a\nb".toList 2 0 ∧
      "ab".toList ∉ bucketUnique "a\nb".toList 2 1 := by
  refine ⟨?_, ⟨by decide, ?_⟩, by decide, by decide, by decide, by decide⟩
  · intro n shuffles
    unfold big_dedup_write
    rw [foldl_append_eq_flatten]
    simp
  · intro j hj
    interval_cases j <;> decide

/-- C9 witness: the concatenation shape applied at one bin holding one
already-shuffled line. -/
theorem claim_C9_witness :
    big_dedup_write 1 [["x".toList]] =
      ((List.range 1).map (fun j => pyJoin '\n' ([["x".toList]].getD j []))).flatten :=
  claim_C9_bucket_concatenation.1 1 [["x".toList]]

/-- An entry passes the shared selection test of strip_archive and
join_archive exactly when it has the extension, has the directory prefix, and
its fourth path segment parses to a year inside the half-open range. -/
theorem entrySelect_ok_true_iff (ext pre : List Char) (years : Int × Int)
    (p : List Char) :
    entrySelect ext pre years p = .ok true ↔
      ext.isSuffixOf p ∧ pre.isPrefixOf p ∧
        ∃ seg y, (pySplit '/' p)[3]? = some seg ∧ pyInt seg = some y ∧
          years.1 ≤ y ∧ y < years.2 := by
  by_cases h1 : ext.isSuffixOf p
  · by_cases h2 : pre.isPrefixOf p
    · cases hseg : (pySplit '/' p)[3]? with
      | none => simp [entrySelect, h1, h2, hseg]
      | some seg =>
        cases hy : pyInt seg with
        | none => simp [entrySelect, h1, h2, hseg, hy]
        | some y => simp [entrySelect, h1, h2, hseg, hy]
    · simp [entrySelect, h1, h2]
  · simp [entrySelect, h1]

/-- Membership in a successful run of the shared selection loop: an entry is
kept exactly when it is listed and passes the selection test. -/
theorem selectPaths_mem (ext pre : List Char) (years : Int × Int) :
    ∀ (names out : List (List Char)),
      selectPaths ext pre years names = .ok out →
      ∀ p, p ∈ out ↔ (p ∈ names ∧ entrySelect ext pre years p = .ok true) := by
  intro names
  induction names with
  | nil =>
    intro out h p
    simp only [selectPaths, Except.ok.injEq] at h
    subst h
    simp
  | cons q qs ih =>
    intro out h p
    cases hq : entrySelect ext pre years q with
    | error e => simp [selectPaths, hq] at h
    | ok b =>
      cases hrest : selectPaths ext pre years qs with
      | error e => simp [selectPaths, hq, hrest] at h
      | ok rest =>
        cases b with
        | true =>
          have hout : out = q :: rest := by
            simp only [selectPaths, hq, hrest, Except.ok.injEq, if_true] at h
            exact h.symm
          rw [hout]
          by_cases hpq : p = q
          · subst hpq
            simp [hq]
          · rw [List.mem_cons, List.mem_cons, ih rest hrest p]
            constructor
            · rintro (he | ⟨hm, ht⟩)
              · exact absurd he hpq
              · exact ⟨Or.inr hm, ht⟩
            · rintro ⟨he | hm, ht⟩
              · exact absurd he hpq
              · exact Or.inr ⟨hm, ht⟩
        | false =>
          have hout : out = rest := by
            simp only [selectPaths, hq, hrest, Except.ok.injEq,
              Bool.false_eq_true, if_false] at h
            exact h.symm
          rw [hout, ih rest hrest p, List.mem_cons]
          constructor
          · rintro ⟨hm, ht⟩
            exact ⟨Or.inr hm, ht⟩
          · rintro ⟨he | hm, ht⟩
            · subst he
              rw [hq] at ht
              exact absurd (Except.ok.inj ht) Bool.false_ne_true
            · exact ⟨hm, ht⟩

/-- C5: an archive entry whose fourth path segment parses to a year outside
the half-open requested range is excluded from the processed entries of both
strip_archive and join_archive; and every entry either run processes has the
matching extension, the directory prefix for the language, and a fourth path
segment parsing to a year inside the range. -/
theorem claim_C5_year_range_filter :
    (∀ (lang ioformat : String) (years : Int × Int) (names : List (List Char))
        (p seg : List Char) (y : Int),
        (pySplit '/' p)[3]? = some seg → pyInt seg = some y →
        ¬ (years.1 ≤ y ∧ y < years.2) →
        (∀ out, stripArchivePaths lang ioformat years names = .ok out → p ∉ out) ∧
          (∀ out, joinArchivePaths lang ioformat years names = .ok out → p ∉ out)) ∧
      (∀ (lang ioformat : String) (years : Int × Int) (names : List (List Char))
          (d : List Char), dirFor ioformat = some d →
        (∀ out, stripArchivePaths lang ioformat years names = .ok out →
          ∀ p ∈ out, ("xml".toList).isSuffixOf p ∧
            (pathJoin d lang.toList).isPrefixOf p ∧
            ∃ seg y, (pySplit '/' p)[3]? = some seg ∧ pyInt seg = some y ∧
              years.1 ≤ y ∧ y < years.2) ∧
          (∀ out, joinArchivePaths lang ioformat years names = .ok out →
            ∀ p ∈ out, (ioformat.toList).isSuffixOf p ∧
              (pathJoin d lang.toList).isPrefixOf p ∧
              ∃ seg y, (pySplit '/' p)[3]? = some seg ∧ pyInt seg = some y ∧
                years.1 ≤ y ∧ y < years.2)) := by
  constructor
  · intro lang ioformat years names p seg y hseg hy hrange
    constructor
    · intro out hout hmem
      cases hd : dirFor ioformat with
      | none => rw [stripArchivePaths, hd] at hout; exact absurd hout (by simp)
      | some d =>
        rw [stripArchivePaths, hd] at hout
        have := (selectPaths_mem _ _ _ names out hout p).mp hmem
        obtain ⟨seg2, y2, hseg2, hy2, hr⟩ := (entrySelect_ok_true_iff _ _ _ _).mp this.2 |>.2.2
        rw [hseg] at hseg2
        obtain rfl := Option.some.inj hseg2
        rw [hy] at hy2
        obtain rfl := Option.some.inj hy2
        exact hrange hr
    · intro out hout hmem
      cases hd : dirFor ioformat with
      | none => rw [joinArchivePaths, hd] at hout; exact absurd hout (by simp)
      | some d =>
        rw [joinArchivePaths, hd] at hout
        have := (selectPaths_mem _ _ _ names out hout p).mp hmem
        obtain ⟨seg2, y2, hseg2, hy2, hr⟩ := (entrySelect_ok_true_iff _ _ _ _).mp this.2 |>.2.2
        rw [hseg] at hseg2
        obtain rfl := Option.some.inj hseg2
        rw [hy] at hy2
        obtain rfl := Option.some.inj hy2
        exact hrange hr
  · intro lang ioformat years names d hd
    constructor
    · intro out hout p hp
      rw [stripArchivePaths, hd] at hout
      have := (selectPaths_mem _ _ _ names out hout p).mp hp
      exact (entrySelect_ok_true_iff _ _ _ _).mp this.2
    · intro out hout p hp
      rw [joinArchivePaths, hd] at hout
      have := (selectPaths_mem _ _ _ names out hout p).mp hp
      exact (entrySelect_ok_true_iff _ _ _ _).mp this.2

/-- C5 witness: the exclusion applied to a concrete out-of-range entry (year
1850 against the range 1900 to 2050) listed in a one-entry archive. -/
theorem claim_C5_witness :
    "OpenSubtitles/raw/en/1850/1/2.xml".toList ∉ ([] : List (List Char)) :=
  (claim_C5_year_range_filter.1 "en" "txt" (1900, 2050)
      ["OpenSubtitles/raw/en/1850/1/2.xml".toList]
      "OpenSubtitles/raw/en/1850/1/2.xml".toList "1850".toList 1850
      (by decide) (by decide) (by decide)).1 [] (by decide)

/-- The output-file component of the join_archive writing loop is the
accumulated content followed by the cleaned bodies of the processed entries in
order, for either verbose setting. -/
theorem joinStep_foldl_fst (contents : List Char → List Char) (ioformat : String)
    (total : Nat) (verbose : Bool) :
    ∀ (fps : List (List Char)) (acc : List Char × Nat × List String),
      (fps.foldl (joinStep contents ioformat total verbose) acc).1 =
        acc.1 ++ (fps.map (fun p => strip_punctuation (contents p) ioformat)).flatten := by
  intro fps
  induction fps with
  | nil => intro acc; simp
  | cons p ps ih =>
    intro acc
    have hstep : (joinStep contents ioformat total verbose acc p).1 =
        acc.1 ++ strip_punctuation (contents p) ioformat := by
      cases verbose <;> simp [joinStep]
    rw [List.foldl_cons, ih, hstep]
    simp [List.append_assoc]

/-- C8: for every archive listing, entry contents, language, ioformat and year
range, running join_archive with the progress indicator on and off produces
the same output file content and the same returned file count (and when the
run aborts, it aborts identically); verbose only changes the console lines. -/
theorem claim_C8_verbose_invariance :
    ∀ (names : List (List Char)) (contents : List Char → List Char)
      (lang ioformat : String) (years : Int × Int),
      (join_archive names contents lang ioformat years true).map
          (fun r => (r.1, r.2.1)) =
        (join_archive names contents lang ioformat years false).map
          (fun r => (r.1, r.2.1)) := by
  intro names contents lang ioformat years
  unfold join_archive
  cases h : joinArchivePaths lang ioformat years names with
  | error e => rfl
  | ok fps =>
    simp only [Except.map]
    rw [joinStep_foldl_fst, joinStep_foldl_fst]

/-- A character allowed in a once-cleaned text is alphanumeric, a space, a
newline, or an underscore. -/
theorem allowedChar_cases (fmt : String) (c : Char)
    (h : allowedChar fmt c = true) :
    pyIsAlnum c = true ∨ c = ' ' ∨ c = '\n' ∨ c = '_' := by
  by_cases h1 : pyIsAlnum c = true
  · exact Or.inl h1
  by_cases h2 : c = ' '
  · exact Or.inr (Or.inl h2)
  by_cases h3 : c = '\n'
  · exact Or.inr (Or.inr (Or.inl h3))
  refine Or.inr (Or.inr (Or.inr ?_))
  by_contra h4
  have hb1 : pyIsAlnum c = false := Bool.eq_false_iff.mpr h1
  have : allowedChar fmt c = false := by
    simp [allowedChar, hb1, h2, h3, h4]
  rw [this] at h
  exact Bool.false_ne_true h

/-- An allowed character is not sentence-final punctuation, not a dash class
character, not an open angle bracket and not an open parenthesis. -/
theorem allowed_not_special (fmt : String) (c : Char)
    (h : allowedChar fmt c = true) :
    c ∉ PUNCT ∧ c ∉ DASHES ∧ c ≠ '<' ∧ c ≠ '(' := by
  have h4 := allowedChar_cases fmt c h
  refine ⟨?_, ?_, ?_, ?_⟩
  · intro hm
    fin_cases hm <;> rcases h4 with h2 | h2 | h2 | h2 <;> exact absurd h2 (by decide)
  · intro hm
    fin_cases hm <;> rcases h4 with h2 | h2 | h2 | h2 <;> exact absurd h2 (by decide)
  · intro hm
    subst hm
    rcases h4 with h2 | h2 | h2 | h2 <;> exact absurd h2 (by decide)
  · intro hm
    subst hm
    rcases h4 with h2 | h2 | h2 | h2 <;> exact absurd h2 (by decide)

/-- An allowed character passes the final character-class filter for its
format. -/
theorem keepChar_of_allowed (fmt : String) (c : Char)
    (h : allowedChar fmt c = true) : keepChar fmt c = true := by
  rcases allowedChar_cases fmt c h with h1 | h1 | h1 | h1
  · simp [keepChar, h1]
  · subst h1
    have hs : pyIsSpace ' ' = true := by decide
    simp [keepChar, hs]
  · subst h1
    have hs : pyIsSpace '\n' = true := by decide
    simp [keepChar, hs]
  · subst h1
    have h5 : pyIsAlnum '_' = false := by decide
    have h6 : pyIsSpace '_' = false := by decide
    simp only [allowedChar, h5] at h
    simp only [keepChar, h5, h6]
    simpa using h

/-- The newline character is allowed under every format. -/
theorem allowedChar_newline (fmt : String) : allowedChar fmt '\n' = true := by
  simp [allowedChar]

/-- Destructor for the no-http condition at a cons cell. -/
theorem noHttp_cons {c : Char} {rest : List Char}
    (h : noHttp (c :: rest) = true) :
    isHttp4 (c :: rest) = false ∧ noHttp rest = true := by
  simpa only [noHttp, Bool.and_eq_true, Bool.not_eq_true'] using h

/-- The no-adjacent-whitespace condition passes to the tail. -/
theorem noAdjWs_tail : ∀ {c : Char} {rest : List Char},
    noAdjWs (c :: rest) = true → noAdjWs rest = true := by
  intro c rest h
  cases rest with
  | nil => rfl
  | cons d r2 =>
    simp only [noAdjWs, Bool.and_eq_true] at h
    exact h.2

/-- Under the no-adjacent-whitespace condition the first two characters are
not both whitespace. -/
theorem noAdjWs_head {c d : Char} {rest : List Char}
    (h : noAdjWs (c :: d :: rest) = true) :
    (pyIsSpace c && pyIsSpace d) = false := by
  simp only [noAdjWs, Bool.and_eq_true, Bool.not_eq_true'] at h
  exact h.1

/-- Rule 1 is the identity on a text with no open angle bracket. -/
theorem rule1Go_id : ∀ (s : List Char) (fuel : Nat),
    '<' ∉ s → rule1Go fuel s = s := by
  intro s
  induction s with
  | nil => intro fuel _; cases fuel <;> rfl
  | cons c rest ih =>
    intro fuel h
    have hc : ¬ c = '<' := fun he => h (he ▸ List.mem_cons_self c rest)
    have hr : '<' ∉ rest := fun hm => h (List.mem_cons_of_mem c hm)
    cases fuel with
    | zero => rfl
    | succ f =>
      simp only [rule1Go, if_neg hc, List.cons.injEq, true_and]
      exact ih f hr

/-- Rule 2 is the identity on a text with no case-insensitive occurrence of
http. -/
theorem rule2Go_id : ∀ (s : List Char) (fuel : Nat),
    noHttp s = true → rule2Go fuel s = s := by
  intro s
  induction s with
  | nil => intro fuel _; cases fuel <;> rfl
  | cons c rest ih =>
    intro fuel h
    obtain ⟨hh, ht⟩ := noHttp_cons h
    cases fuel with
    | zero => rfl
    | succ f =>
      simp only [rule2Go, hh, Bool.false_eq_true, if_false, List.cons.injEq, true_and]
      exact ih f ht

/-- Rule 3 is the identity on a text with no open parenthesis. -/
theorem rule3Go_id : ∀ (s : List Char) (fuel : Nat),
    '(' ∉ s → rule3Go fuel s = s := by
  intro s
  induction s with
  | nil => intro fuel _; cases fuel <;> rfl
  | cons c rest ih =>
    intro fuel h
    have hr : '(' ∉ rest := fun hm => h (List.mem_cons_of_mem c hm)
    have hcond : ¬ (pyIsSpace c = true ∧ rest.head? = some '(') := by
      rintro ⟨_, hh⟩
      cases rest with
      | nil => exact absurd hh (by simp)
      | cons d r2 =>
        rw [List.head?_cons] at hh
        obtain rfl := Option.some.inj hh
        exact hr (List.mem_cons_self _ _)
    cases fuel with
    | zero => rfl
    | succ f =>
      simp only [rule3Go, if_neg hcond, List.cons.injEq, true_and]
      exact ih f hr

/-- Rule 5 is the identity on a text with no dash class character. -/
theorem rule5_id : ∀ s : List Char, (∀ c ∈ s, c ∉ DASHES) → rule5 s = s := by
  intro s
  induction s with
  | nil => intro _; rfl
  | cons c rest ih =>
    intro h
    have hc : c ∉ DASHES := h c (List.mem_cons_self c rest)
    have := ih (fun d hd => h d (List.mem_cons_of_mem c hd))
    simp only [rule5, List.map_cons, if_neg hc, List.cons.injEq, true_and] at this ⊢
    exact this

/-- Rule 7 is the identity on a text with no two adjacent whitespace
characters. -/
theorem rule7Go_id : ∀ (s : List Char) (fuel : Nat),
    noAdjWs s = true → rule7Go fuel s = s := by
  intro s
  induction s with
  | nil => intro fuel _; cases fuel <;> rfl
  | cons c rest ih =>
    intro fuel h
    cases fuel with
    | zero => rfl
    | succ f =>
      cases hc : pyIsSpace c with
      | false =>
        simp only [rule7Go, hc, Bool.false_eq_true, if_false, List.cons.injEq, true_and]
        exact ih f (noAdjWs_tail h)
      | true =>
        have hrun : rest.takeWhile pyIsSpace = [] := by
          cases rest with
          | nil => rfl
          | cons d r2 =>
            have hd := noAdjWs_head h
            rw [hc, Bool.true_and] at hd
            simp [List.takeWhile_cons, hd]
        have hdrop : rest.dropWhile pyIsSpace = rest := by
          cases rest with
          | nil => rfl
          | cons d r2 =>
            have hd := noAdjWs_head h
            rw [hc, Bool.true_and] at hd
            simp [List.dropWhile_cons, hd]
        simp only [rule7Go, hc, if_true, hrun, hdrop, if_pos rfl,
          List.singleton_append, List.cons.injEq, true_and]
        exact ih f (noAdjWs_tail h)

/-- The final character-class filter is the identity on allowed text. -/
theorem filter_keepChar_id (fmt : String) (s : List Char)
    (h : ∀ c ∈ s, allowedChar fmt c = true) : s.filter (keepChar fmt) = s :=
  List.filter_eq_self.mpr (fun c hc => keepChar_of_allowed fmt c (h c hc))

/-- On allowed text the first alternative of the sentence-break pattern never
matches: the last character of a non-whitespace run is never punctuation. -/
theorem tryAlt1_none (fmt : String) (s : List Char)
    (h : ∀ c ∈ s, allowedChar fmt c = true) : tryAlt1 s = none := by
  have hcond : ¬ (3 ≤ nonWsRun s ∧ nonWsRun s < s.length ∧
      s.getD (nonWsRun s - 1) ' ' ∈ PUNCT) := by
    rintro ⟨_, hlen, hp⟩
    have hlt : nonWsRun s - 1 < s.length :=
      Nat.lt_of_le_of_lt (Nat.sub_le _ 1) hlen
    have hg : s.getD (nonWsRun s - 1) ' ' = s[nonWsRun s - 1] := by
      rw [List.getD_eq_getElem?_getD, List.getElem?_eq_getElem hlt]
      rfl
    rw [hg] at hp
    exact (allowed_not_special fmt _ (h _ (List.getElem_mem hlt))).1 hp
  rw [tryAlt1, if_neg hcond]

/-- Rule 4 on allowed text ending in a newline only fires the bare dollar
alternative: one newline is inserted before the trailing newline and one is
appended at the end. -/
theorem rule4Go_clean (fmt : String) :
    ∀ (z : List Char) (fuel : Nat), z.length < fuel →
      (∀ c ∈ z, allowedChar fmt c = true) →
      rule4Go fuel (z ++ ['\n']) = z ++ ['\n', '\n', '\n'] := by
  intro z
  induction z with
  | nil =>
    intro fuel hf _
    cases fuel with
    | zero => exact absurd hf (by omega)
    | succ f => simp [rule4Go]
  | cons c z2 ih =>
    intro fuel hf hall
    cases fuel with
    | zero => exact absurd hf (by omega)
    | succ f =>
      have hc : allowedChar fmt c = true := hall c (List.mem_cons_self _ _)
      have h2 : ∀ d ∈ z2, allowedChar fmt d = true :=
        fun d hd => hall d (List.mem_cons_of_mem c hd)
      have hne : ¬ (c = '\n' ∧ z2 ++ ['\n'] = ([] : List Char)) := by
        rintro ⟨_, habs⟩
        simp at habs
      have halt : tryAlt1 (c :: (z2 ++ ['\n'])) = none := by
        apply tryAlt1_none fmt
        intro d hd
        rcases List.mem_cons.mp hd with rfl | hd2
        · exact hc
        rcases List.mem_append.mp hd2 with hd3 | hd3
        · exact h2 d hd3
        · rw [List.mem_singleton.mp hd3]
          exact allowedChar_newline fmt
      show rule4Go (f + 1) (c :: (z2 ++ ['\n'])) = (c :: z2) ++ ['\n', '\n', '\n']
      simp only [rule4Go, if_neg hne, halt, List.cons_append, List.cons.injEq, true_and]
      exact ih f (by simp at hf; omega) h2

/-- Unfolding equation of the rule 6 scanner at a cons cell with fuel. -/
theorem rule6Go_cons (f : Nat) (c : Char) (rest : List Char) :
    rule6Go (f + 1) (c :: rest) =
      (if pyIsSpace c then
        (if c = '\n' || (rest.takeWhile pyIsSpace).contains '\n' then ['\n']
          else c :: rest.takeWhile pyIsSpace) ++
          rule6Go f (rest.dropWhile pyIsSpace)
      else c :: rule6Go f rest) := rfl

/-- Rule 6 on text with no two adjacent whitespace characters collapses the
trailing three newlines back to one and touches nothing else. -/
theorem rule6Go_restore :
    ∀ (z : List Char) (fuel : Nat), noAdjWs (z ++ ['\n']) = true →
      z.length + 3 ≤ fuel →
      rule6Go fuel (z ++ ['\n', '\n', '\n']) = z ++ ['\n'] := by
  intro z
  induction z with
  | nil =>
    intro fuel _ hf
    cases fuel with
    | zero => exact absurd hf (by omega)
    | succ f =>
      have hs : pyIsSpace '\n' = true := by decide
      simp [rule6Go, hs, List.takeWhile_cons, List.dropWhile_cons]
  | cons c z2 ih =>
    intro fuel h hf
    cases fuel with
    | zero => exact absurd hf (by omega)
    | succ f =>
      have htail : noAdjWs (z2 ++ ['\n']) = true := noAdjWs_tail h
      rw [show (c :: z2) ++ ['\n', '\n', '\n'] = c :: (z2 ++ ['\n', '\n', '\n']) from rfl,
        rule6Go_cons]
      cases hc : pyIsSpace c with
      | false =>
        rw [if_neg Bool.false_ne_true, ih f htail (by simp at hf; omega)]
        rfl
      | true =>
        rw [if_pos rfl]
        cases z2 with
        | nil =>
          exfalso
          have hh := noAdjWs_head (show noAdjWs (c :: '\n' :: []) = true from h)
          rw [hc, Bool.true_and] at hh
          exact absurd hh (by decide)
        | cons d z3 =>
          have hd : pyIsSpace d = false := by
            have hh := noAdjWs_head
              (show noAdjWs (c :: d :: (z3 ++ ['\n'])) = true from h)
            rwa [hc, Bool.true_and] at hh
          have hrun : ((d :: z3) ++ ['\n', '\n', '\n']).takeWhile pyIsSpace = [] := by
            simp [List.takeWhile_cons, hd]
          have hdrop : ((d :: z3) ++ ['\n', '\n', '\n']).dropWhile pyIsSpace =
              (d :: z3) ++ ['\n', '\n', '\n'] := by
            simp [List.dropWhile_cons, hd]
          have hrec := ih f htail (by simp at hf ⊢; omega)
          rw [hrun, hdrop, hrec]
          by_cases hcn : c = '\n'
          · rw [if_pos (by simp [hcn])]
            subst hcn
            rfl
          · rw [if_neg (by simp [hcn])]
            rfl

/-- A once-cleaned text satisfying the cleanliness conditions is a fixed point
of strip_punctuation. -/
theorem strip_punctuation_fixed (fmt : String) (s : List Char)
    (h : cleanText fmt s) : strip_punctuation s fmt = s := by
  obtain ⟨hall, hhttp, hadj, hlast⟩ := h
  obtain ⟨z, rfl⟩ := List.getLast?_eq_some_iff.mp hlast
  have hallz : ∀ c ∈ z, allowedChar fmt c = true :=
    fun c hc => hall c (List.mem_append.mpr (Or.inl hc))
  have h1 : rule1 (z ++ ['\n']) = z ++ ['\n'] := by
    apply rule1Go_id
    intro hm
    exact (allowed_not_special fmt '<' (hall '<' hm)).2.2.1 rfl
  have h2 : rule2 (z ++ ['\n']) = z ++ ['\n'] := rule2Go_id _ _ hhttp
  have h3 : rule3 (z ++ ['\n']) = z ++ ['\n'] := by
    apply rule3Go_id
    intro hm
    exact (allowed_not_special fmt '(' (hall '(' hm)).2.2.2 rfl
  have h4 : rule4 (z ++ ['\n']) = z ++ ['\n', '\n', '\n'] := by
    unfold rule4
    exact rule4Go_clean fmt z (z ++ ['\n']).length (by simp) hallz
  have h5 : rule5 (z ++ ['\n', '\n', '\n']) = z ++ ['\n', '\n', '\n'] := by
    apply rule5_id
    intro c hc
    rcases List.mem_append.mp hc with hc2 | hc2
    · exact (allowed_not_special fmt c (hallz c hc2)).2.1
    · have : c = '\n' := by simpa using hc2
      subst this
      decide
  have h6 : rule6 (z ++ ['\n', '\n', '\n']) = z ++ ['\n'] := by
    unfold rule6
    exact rule6Go_restore z (z ++ ['\n', '\n', '\n']).length hadj (by simp)
  have h7 : rule7 (z ++ ['\n']) = z ++ ['\n'] := rule7Go_id _ _ hadj
  have h8 := filter_keepChar_id fmt (z ++ ['\n']) hall
  unfold strip_punctuation
  rw [h1, h2, h3, h4, h5, h6, h7, h8]

/-- C3 counterexample: the punctuation-cleanup pipeline is not idempotent on
every input: on the three-character input a, space, asterisk (txt format) one
application gives the text a, space, newline, while a second application also
collapses the space before the newline, giving a, newline. -/
theorem claim_C3_counterexample :
    strip_punctuation (strip_punctuation "a *".toList "txt") "txt" ≠
      strip_punctuation "a *".toList "txt" := by
  decide

/-- C3 as amended: applying the punctuation-cleanup pipeline twice yields the
same result as applying it once for every input and format whose once-cleaned
result contains only allowed characters (alphanumeric, space, newline, and
underscore for the tagged formats), contains no case-insensitive occurrence of
http, has no two adjacent whitespace characters, and ends with a newline. -/
theorem claim_C3_idempotent_on_clean (ioformat : String) (txt : List Char)
    (h : cleanText ioformat (strip_punctuation txt ioformat)) :
    strip_punctuation (strip_punctuation txt ioformat) ioformat =
      strip_punctuation txt ioformat :=
  strip_punctuation_fixed ioformat (strip_punctuation txt ioformat) h

/-- C3 witness: the amended idempotence applied at a concrete input whose
cleaned form satisfies the cleanliness conditions. -/
theorem claim_C3_witness :
    cleanText "txt" (strip_punctuation "ab cd".toList "txt") ∧
      strip_punctuation (strip_punctuation "ab cd".toList "txt") "txt" =
        strip_punctuation "ab cd".toList "txt" :=
  ⟨by decide, claim_C3_idempotent_on_clean "txt" "ab cd".toList (by decide)⟩
